import Mathlib

/-!
Verification of the statistical evaluation engine of the `simrng` repository.

The Rust code is shallowly embedded: `f64` values are modelled as exact
rationals (`ℚ`) where the code only uses field arithmetic and comparisons,
and as real numbers (`ℝ`) where the code calls transcendental functions
(`exp`); machine integers (`u64`/`usize`) are modelled as `ℕ`, with the
wrapping arithmetic of release-mode Rust made explicit (`% 2 ^ 64`) at the
places where an operation can actually wrap.
-/

/-- Row of the chi-squared computation table: `ChiInterval` in
`src/stats/mod.rs` (lines 41-51).  `fo` is a `u64` count, the other numeric
fields are `f64`, modelled as exact rationals.  `c` and `c_ac` are the
optional per-row statistic and its cumulative sum, set only by `set_c`. -/
structure ChiInterval where
  lower : ℚ
  upper : ℚ
  fo : ℕ
  fe : ℚ
  c : Option ℚ
  c_ac : Option ℚ
  deriving DecidableEq

/-- Embeds `ChiInterval::merge` from `src/stats/mod.rs` (lines 62-67): absorb
another interval, keeping the union of the bounds and summing both
frequencies.  The `c`/`c_ac` fields of `self` are left untouched, as in the
source. -/
def ChiInterval.merge (self other : ChiInterval) : ChiInterval :=
  { self with
    lower := min self.lower other.lower
    upper := max self.upper other.upper
    fo := self.fo + other.fo
    fe := self.fe + other.fe }

/-- The `if let Some(int) = &mut pending { interval.merge(&int) }` step at
the top of the loop body of `merge_intervals`: the current interval absorbs
the pending accumulator when there is one. -/
def absorb (pending : Option ChiInterval) (i : ChiInterval) : ChiInterval :=
  match pending with
  | some p => i.merge p
  | none => i

/-- The left-to-right sweep of `merge_intervals` (`src/stats/mod.rs`
lines 214-225): returns the list of emitted intervals together with the
pending accumulator left over at the end of the loop. -/
def mergeAux : Option ChiInterval → List ChiInterval → List ChiInterval × Option ChiInterval
  | pending, [] => ([], pending)
  | pending, i :: rest =>
    let i2 := absorb pending i
    if 5 ≤ i2.fe then
      (i2 :: (mergeAux none rest).1, (mergeAux none rest).2)
    else
      mergeAux (some i2) rest

/-- The final phase of `merge_intervals` (`src/stats/mod.rs` lines 227-236):
a leftover pending interval is merged into the last emitted interval via
`last_mut`, or becomes the single output if nothing was emitted. -/
def mergeFinal : List ChiInterval → ChiInterval → List ChiInterval
  | [], p => [p]
  | [x], p => [x.merge p]
  | x :: y :: rest, p => x :: mergeFinal (y :: rest) p

/-- Embeds `merge_intervals` from `src/stats/mod.rs` (lines 211-238). -/
def merge_intervals (l : List ChiInterval) : List ChiInterval :=
  match (mergeAux none l).2 with
  | none => (mergeAux none l).1
  | some p => mergeFinal (mergeAux none l).1 p

/-- Total observed frequency of a list of intervals. -/
def foSum (l : List ChiInterval) : ℕ := (l.map ChiInterval.fo).sum

/-- Total expected frequency of a list of intervals. -/
def feSum (l : List ChiInterval) : ℚ := (l.map ChiInterval.fe).sum

/-- Observed frequency carried by the pending accumulator. -/
def pendFo : Option ChiInterval → ℕ
  | none => 0
  | some p => p.fo

/-- Expected frequency carried by the pending accumulator. -/
def pendFe : Option ChiInterval → ℚ
  | none => 0
  | some p => p.fe

@[simp] theorem foSum_nil : foSum [] = 0 := rfl

@[simp] theorem foSum_cons (a : ChiInterval) (l : List ChiInterval) :
    foSum (a :: l) = a.fo + foSum l := by
  simp [foSum]

@[simp] theorem feSum_nil : feSum [] = 0 := rfl

@[simp] theorem feSum_cons (a : ChiInterval) (l : List ChiInterval) :
    feSum (a :: l) = a.fe + feSum l := by
  simp [feSum]

@[simp] theorem pendFo_none : pendFo none = 0 := rfl

@[simp] theorem pendFo_some (p : ChiInterval) : pendFo (some p) = p.fo := rfl

@[simp] theorem pendFe_none : pendFe none = 0 := rfl

@[simp] theorem pendFe_some (p : ChiInterval) : pendFe (some p) = p.fe := rfl

theorem absorb_fo (pending : Option ChiInterval) (i : ChiInterval) :
    (absorb pending i).fo = i.fo + pendFo pending := by
  cases pending <;> simp [absorb, pendFo, ChiInterval.merge]

theorem absorb_fe (pending : Option ChiInterval) (i : ChiInterval) :
    (absorb pending i).fe = i.fe + pendFe pending := by
  cases pending <;> simp [absorb, pendFe, ChiInterval.merge]

theorem mergeAux_fo (l : List ChiInterval) (pending : Option ChiInterval) :
    foSum (mergeAux pending l).1 + pendFo (mergeAux pending l).2 =
      foSum l + pendFo pending := by
  induction l generalizing pending with
  | nil => simp [mergeAux]
  | cons i rest ih =>
    simp only [mergeAux]
    by_cases h : 5 ≤ (absorb pending i).fe
    · rw [if_pos h]
      have hr := ih none
      have hfo := absorb_fo pending i
      simp only [pendFo_none, Nat.add_zero] at hr
      simp only [foSum_cons]
      omega
    · rw [if_neg h]
      have hr := ih (some (absorb pending i))
      have hfo := absorb_fo pending i
      simp only [pendFo_some] at hr
      simp only [foSum_cons]
      omega

theorem mergeAux_fe (l : List ChiInterval) (pending : Option ChiInterval) :
    feSum (mergeAux pending l).1 + pendFe (mergeAux pending l).2 =
      feSum l + pendFe pending := by
  induction l generalizing pending with
  | nil => simp [mergeAux]
  | cons i rest ih =>
    simp only [mergeAux]
    by_cases h : 5 ≤ (absorb pending i).fe
    · rw [if_pos h]
      have hr := ih none
      have hfe := absorb_fe pending i
      simp only [pendFe_none, add_zero] at hr
      simp only [feSum_cons]
      linarith
    · rw [if_neg h]
      have hr := ih (some (absorb pending i))
      have hfe := absorb_fe pending i
      simp only [pendFe_some] at hr
      simp only [feSum_cons]
      linarith

theorem mergeFinal_fo (l : List ChiInterval) (p : ChiInterval) :
    foSum (mergeFinal l p) = foSum l + p.fo := by
  induction l with
  | nil => simp [mergeFinal]
  | cons x rest ih =>
    cases rest with
    | nil => simp [mergeFinal, ChiInterval.merge]
    | cons y rest2 =>
      show foSum (x :: mergeFinal (y :: rest2) p) = foSum (x :: y :: rest2) + p.fo
      simp only [foSum_cons, ih]
      omega

theorem mergeFinal_fe (l : List ChiInterval) (p : ChiInterval) :
    feSum (mergeFinal l p) = feSum l + p.fe := by
  induction l with
  | nil => simp [mergeFinal]
  | cons x rest ih =>
    cases rest with
    | nil => simp [mergeFinal, ChiInterval.merge]
    | cons y rest2 =>
      show feSum (x :: mergeFinal (y :: rest2) p) = feSum (x :: y :: rest2) + p.fe
      simp only [feSum_cons, ih]
      ring

/-- C2: for every input interval sequence, `merge_intervals` conserves the
total observed frequency `Σ fo` and the total expected frequency `Σ fe`:
merging never loses or duplicates mass. -/
theorem merge_intervals_conserves_totals (l : List ChiInterval) :
    foSum (merge_intervals l) = foSum l ∧ feSum (merge_intervals l) = feSum l := by
  have hfo := mergeAux_fo l none
  have hfe := mergeAux_fe l none
  simp only [pendFo_none, Nat.add_zero, pendFe_none, add_zero] at hfo hfe
  unfold merge_intervals
  split
  next heq =>
    rw [heq] at hfo hfe
    simp only [pendFo_none, Nat.add_zero, pendFe_none, add_zero] at hfo hfe
    exact ⟨hfo, hfe⟩
  next p heq =>
    rw [heq] at hfo hfe
    simp only [pendFo_some, pendFe_some] at hfo hfe
    constructor
    · rw [mergeFinal_fo]; omega
    · rw [mergeFinal_fe]; linarith

theorem mergeAux_emitted_ge (l : List ChiInterval) (pending : Option ChiInterval) :
    ∀ x ∈ (mergeAux pending l).1, 5 ≤ x.fe := by
  induction l generalizing pending with
  | nil => simp [mergeAux]
  | cons i rest ih =>
    simp only [mergeAux]
    by_cases h : 5 ≤ (absorb pending i).fe
    · rw [if_pos h]
      intro x hx
      rcases List.mem_cons.mp hx with hx | hx
      · rw [hx]; exact h
      · exact ih none x hx
    · rw [if_neg h]
      exact ih (some (absorb pending i))

theorem mergeAux_pending_nonneg (l : List ChiInterval) (pending : Option ChiInterval)
    (hl : ∀ x ∈ l, 0 ≤ x.fe) (hp : 0 ≤ pendFe pending) :
    0 ≤ pendFe (mergeAux pending l).2 := by
  induction l generalizing pending with
  | nil => simpa [mergeAux] using hp
  | cons i rest ih =>
    simp only [mergeAux]
    have hi : 0 ≤ (absorb pending i).fe := by
      rw [absorb_fe]
      have := hl i (List.mem_cons_self i rest)
      linarith
    by_cases h : 5 ≤ (absorb pending i).fe
    · rw [if_pos h]
      exact ih none (fun x hx => hl x (List.mem_cons_of_mem i hx)) (by simp [pendFe])
    · rw [if_neg h]
      exact ih (some (absorb pending i)) (fun x hx => hl x (List.mem_cons_of_mem i hx))
        (by simpa [pendFe] using hi)

theorem mergeFinal_ge (l : List ChiInterval) (p : ChiInterval)
    (hl : ∀ x ∈ l, 5 ≤ x.fe) (hp : 0 ≤ p.fe) (hne : l ≠ []) :
    ∀ x ∈ mergeFinal l p, 5 ≤ x.fe := by
  induction l with
  | nil => exact absurd rfl hne
  | cons a rest ih =>
    cases rest with
    | nil =>
      intro x hx
      simp only [mergeFinal, List.mem_singleton] at hx
      rw [hx]
      have := hl a (List.mem_cons_self a [])
      simp [ChiInterval.merge]
      linarith
    | cons y rest2 =>
      intro x hx
      simp only [mergeFinal, List.mem_cons] at hx
      rcases hx with hx | hx
      · rw [hx]; exact hl a (List.mem_cons_self a (y :: rest2))
      · exact ih (fun z hz => hl z (List.mem_cons_of_mem a hz)) (by simp) x hx

/-- C3: when every input interval has a non-negative expected frequency,
every interval emitted by `merge_intervals` has `fe ≥ 5`, except that when
no interval ever reaches the threshold the output is the single
accumulated under-threshold interval. -/
theorem merge_intervals_threshold_invariant (l : List ChiInterval)
    (h : ∀ x ∈ l, 0 ≤ x.fe) :
    (∀ x ∈ merge_intervals l, 5 ≤ x.fe) ∨ (merge_intervals l).length = 1 := by
  unfold merge_intervals
  split
  next heq => exact Or.inl (mergeAux_emitted_ge l none)
  next p heq =>
    cases ho : (mergeAux none l).1 with
    | nil => right; simp [mergeFinal]
    | cons a rest =>
      left
      have hpfe : 0 ≤ p.fe := by
        have hnn := mergeAux_pending_nonneg l none h (by simp)
        rw [heq] at hnn
        simpa using hnn
      have hge : ∀ x ∈ (a :: rest), 5 ≤ x.fe := by
        rw [← ho]
        exact mergeAux_emitted_ge l none
      exact mergeFinal_ge (a :: rest) p hge hpfe (by simp)

/-- Witness for C3 at a concrete input: two intervals with `fe = 3` and
`fe = 4` merge into one interval with `fe = 7 ≥ 5`. -/
theorem merge_intervals_threshold_invariant_witness :
    (∀ x ∈ [ChiInterval.mk 0 1 3 3 none none, ChiInterval.mk 1 2 4 4 none none],
      (0 : ℚ) ≤ x.fe) ∧
    ((∀ x ∈ merge_intervals
        [ChiInterval.mk 0 1 3 3 none none, ChiInterval.mk 1 2 4 4 none none],
        5 ≤ x.fe) ∨
      (merge_intervals
        [ChiInterval.mk 0 1 3 3 none none, ChiInterval.mk 1 2 4 4 none none]).length = 1) :=
  ⟨by decide, merge_intervals_threshold_invariant _ (by decide)⟩

/-- Lower bound derivation in `full_statistics` (`src/stats/mod.rs` lines
85-89): the minimum of the retained sample, defaulted to `0.0` by
`unwrap_or(&0f64)` when the sample is empty, then `floor`ed. -/
def sampleLower (nums : List ℚ) : ℚ := (Int.floor ((nums.min?).getD 0) : ℚ)

/-- Upper bound derivation in `full_statistics` (`src/stats/mod.rs` lines
90-94): the maximum of the retained sample, defaulted to `0.0` by
`unwrap_or(&0f64)` when the sample is empty, then `ceil`ed. -/
def sampleUpper (nums : List ℚ) : ℚ := (Int.ceil ((nums.max?).getD 0) : ℚ)

/-- C1: `full_statistics` has no `EmptySample` error path.  On the empty
retained sample the `unwrap_or(&0f64)` defaults silently substitute
`lower = upper = 0`, the bin width `(upper - lower) / intervals` becomes 0,
and the computation proceeds (in Rust the ensuing `(0 - 0)^2 / 0` chi-term
is NaN) instead of failing as the claim requires. -/
theorem empty_sample_bounds_defaulted :
    sampleLower [] = 0 ∧ sampleUpper [] = 0 ∧
    (sampleUpper [] - sampleLower []) / 12 = 0 := by
  refine ⟨?_, ?_, ?_⟩ <;> simp [sampleLower, sampleUpper]

/-- Embeds `Uniform::get_degrees` from `src/dist/uniform.rs` (lines 39-41): the
unclamped `intervals - 1` on `usize` (at `intervals = 0` the Rust
subtraction would underflow; every caller passes the length of a non-empty
merged list, so `intervals ≥ 1`). -/
def Uniform.get_degrees (intervals : ℕ) : ℕ := intervals - 1

/-- Embeds `Exponential::get_degrees` from `src/dist/exponential.rs`
(lines 35-38): `intervals - 2` clamped to 1 for `intervals < 3`. -/
def Exponential.get_degrees (intervals : ℕ) : ℕ :=
  if 3 ≤ intervals then intervals - 2 else 1

/-- Embeds `Poisson::get_degrees` from `src/dist/poisson.rs` (lines 25-28):
`intervals - 2` clamped to 1 for `intervals < 3`. -/
def Poisson.get_degrees (intervals : ℕ) : ℕ :=
  if 3 ≤ intervals then intervals - 2 else 1

/-- Embeds `Normal::get_degrees` from `src/dist/normal.rs` (lines 45-48):
`intervals - 3` clamped to 1 for `intervals < 4`. -/
def Normal.get_degrees (intervals : ℕ) : ℕ :=
  if 4 ≤ intervals then intervals - 3 else 1

/-- Embeds `Normal::get_degrees` from the `src/dist/mod.rs` snapshot (lines
61-63): `intervals as u64 - 3`, a wrapping `u64` subtraction in release
mode. -/
def NormalMod.get_degrees (intervals : ℕ) : ℕ :=
  (intervals + (2 ^ 64 - 3)) % 2 ^ 64

/-- C7 counterexample: `Uniform::get_degrees` at one merged interval
returns 0: the `k - 1` adjustment is not clamped to a minimum of 1. -/
theorem uniform_get_degrees_returns_zero : Uniform.get_degrees 1 = 0 := rfl

/-- C7 amended: the Exponential and Poisson (`k - 2`) adjustments and the
`normal.rs` Normal (`k - 3`) adjustment are clamped to a minimum of 1, but
`Uniform::get_degrees` is the unclamped `k - 1` — at least 1 only for
`k ≥ 2` and equal to 0 at `k = 1` — and the `dist/mod.rs` Normal variant
computes `k - 3` with wrapping `u64` subtraction, wrapping around for
`k < 3` (to `2 ^ 64 - 1` at `k = 2`). -/
theorem get_degrees_clamp_amended (k : ℕ) (hk : 1 ≤ k) :
    (1 ≤ Exponential.get_degrees k ∧ 1 ≤ Poisson.get_degrees k ∧
      1 ≤ Normal.get_degrees k) ∧
    (2 ≤ k → 1 ≤ Uniform.get_degrees k) ∧ Uniform.get_degrees 1 = 0 ∧
    NormalMod.get_degrees 2 = 2 ^ 64 - 1 := by
  refine ⟨⟨?_, ?_, ?_⟩, ?_, rfl, ?_⟩
  · unfold Exponential.get_degrees; split <;> omega
  · unfold Poisson.get_degrees; split <;> omega
  · unfold Normal.get_degrees; split <;> omega
  · intro h2; unfold Uniform.get_degrees; omega
  · unfold NormalMod.get_degrees; omega

/-- Witness for the amended C7 at `k = 2` merged intervals. -/
theorem get_degrees_clamp_amended_witness :
    1 ≤ 2 ∧
    ((1 ≤ Exponential.get_degrees 2 ∧ 1 ≤ Poisson.get_degrees 2 ∧
        1 ≤ Normal.get_degrees 2) ∧
      (2 ≤ 2 → 1 ≤ Uniform.get_degrees 2) ∧ Uniform.get_degrees 1 = 0 ∧
      NormalMod.get_degrees 2 = 2 ^ 64 - 1) :=
  ⟨by norm_num, get_degrees_clamp_amended 2 (by norm_num)⟩

/-- Rust `as u64`/`as usize` cast of an `f64`: truncation toward zero,
saturating at 0 for negative values (the huge-value saturation bound is
never reached in scope). -/
def castU64 (q : ℚ) : ℕ := (Int.floor q).toNat

/-- Embeds `factorial` from `src/dist/poisson.rs` (lines 64-67): the product over
the half-open Rust range `1..n`, i.e. `1 * 2 * ... * (n - 1)`. -/
def factorial (n : ℕ) : ℕ := (List.range' 1 (n - 1)).prod

/-- Embeds `factorial` from the `src/dist/mod.rs` snapshot (lines 261-264): the
product over the half-open Rust range `0..n`, whose first element is 0 for
every `n ≥ 1`. -/
def factorialModRs (n : ℕ) : ℕ := (List.range n).prod

/-- Loop body of `Poisson::get_expected` (`src/dist/poisson.rs` lines
13-23), recursing on the number of remaining bins; `interval` is the
current non-negative integer support point. -/
noncomputable def poissonAux (lambda : ℝ) : ℕ → ℕ → List ℝ
  | 0, _ => []
  | n + 1, interval =>
    (Real.exp (-lambda) * lambda ^ interval / (factorial interval : ℝ)) ::
      poissonAux lambda n (interval + 1)

/-- Embeds `Poisson::get_expected` from `src/dist/poisson.rs` (lines 12-23): one
bin per integer support point starting at `lower as u64`; `f64`
transcendentals are modelled over `ℝ`. -/
noncomputable def Poisson.get_expected (lambda : ℝ) (intervals : ℕ) (lower : ℚ) : List ℝ :=
  poissonAux lambda intervals (castU64 lower)

/-- C5: the Poisson expected-mass denominator is wrong.  `factorial n` in
`src/dist/poisson.rs` multiplies the half-open range `1..n`, giving
`(n-1)!` instead of `n!` (correct only for `n ∈ {0,1}`); the
`src/dist/mod.rs` variant multiplies `0..n` and returns 0 for every
`n ≥ 1`.  Hence the bin for `n = 2` at `λ = 1` receives mass
`e^{-1} / 1` where the claimed law gives `e^{-1} / 2!`. -/
theorem poisson_factorial_off_by_one :
    factorial 0 = 1 ∧ factorial 1 = 1 ∧ factorial 2 = 1 ∧ factorial 3 = 2 ∧
    factorial 4 = 6 ∧ Nat.factorial 2 = 2 ∧
    factorialModRs 1 = 0 ∧ factorialModRs 2 = 0 ∧
    (Poisson.get_expected 1 3 0).getD 2 0 = Real.exp (-1) ∧
    Real.exp (-1) ≠ Real.exp (-1) / (Nat.factorial 2 : ℝ) := by
  refine ⟨rfl, rfl, rfl, rfl, rfl, rfl, rfl, rfl, ?_, ?_⟩
  · have hcast : castU64 0 = 0 := rfl
    have hfac : factorial 2 = 1 := rfl
    simp [Poisson.get_expected, poissonAux, hcast, hfac]
  · intro hcontra
    have h2 : ((Nat.factorial 2 : ℕ) : ℝ) = 2 := by norm_num [Nat.factorial]
    rw [h2] at hcontra
    have hpos := Real.exp_pos (-1)
    linarith

/-- Loop body of `Exponential::get_expected` (`src/dist/exponential.rs`
lines 17-31), recursing on the number of remaining bins `r + 1` (the test
`i == intervals - 1` of the source becomes `r = 0`); `interval` is the
running right edge of the current bin and `accPrev` the previous
cumulative value. -/
noncomputable def expAux (lambda size : ℝ) : ℕ → ℝ → ℝ → List ℝ
  | 0, _, _ => []
  | r + 1, interval, accPrev =>
    let acc : ℝ := if r = 0 then 1 else 1 - Real.exp (-lambda * interval)
    (acc - accPrev) :: expAux lambda size r (interval + size) acc

/-- Embeds `Exponential::get_expected` from `src/dist/exponential.rs` (lines
13-33): per-bin masses are consecutive differences of the cumulative
values `1 - exp(-λ·edge)` at the bin right edges, with the last cumulative
value forced to `1.0`. -/
noncomputable def Exponential.get_expected (lambda : ℝ) (intervals : ℕ)
    (lower upper : ℝ) : List ℝ :=
  expAux lambda ((upper - lower) / intervals) intervals
    (lower + (upper - lower) / intervals) 0

theorem expAux_length (lambda size : ℝ) :
    ∀ (r : ℕ) (interval accPrev : ℝ),
      (expAux lambda size r interval accPrev).length = r
  | 0, _, _ => rfl
  | r + 1, interval, accPrev => by
    simp [expAux, expAux_length lambda size r]

theorem expAux_sum (lambda size : ℝ) :
    ∀ (r : ℕ), 1 ≤ r → ∀ (interval accPrev : ℝ),
      (expAux lambda size r interval accPrev).sum = 1 - accPrev := by
  intro r
  induction r with
  | zero => omega
  | succ r ih =>
    intro _ interval accPrev
    by_cases h : r = 0
    · subst h
      simp [expAux]
    · have hr : 1 ≤ r := Nat.one_le_iff_ne_zero.mpr h
      simp only [expAux, if_neg h, List.sum_cons]
      rw [ih hr]
      ring

/-- C10: for every rate `λ`, bin count `k ≥ 1` and bounds
`lower < upper`, `Exponential::get_expected` returns exactly `k` masses
which, read as exact real arithmetic, sum to exactly 1: the cumulative
values telescope and the last one is forced to `1.0`, so no tail mass is
truncated. -/
theorem exponential_expected_sums_to_one (lambda : ℝ) (k : ℕ) (lower upper : ℝ)
    (hk : 1 ≤ k) (hlu : lower < upper) :
    (Exponential.get_expected lambda k lower upper).length = k ∧
    (Exponential.get_expected lambda k lower upper).sum = 1 := by
  unfold Exponential.get_expected
  refine ⟨expAux_length _ _ _ _ _, ?_⟩
  rw [expAux_sum lambda ((upper - lower) / k) k hk]
  ring

/-- Witness for C10 at `λ = 1`, one bin over `[0, 1]`. -/
theorem exponential_expected_sums_to_one_witness :
    (1 ≤ 1 ∧ (0 : ℝ) < 1) ∧
    ((Exponential.get_expected 1 1 0 1).length = 1 ∧
      (Exponential.get_expected 1 1 0 1).sum = 1) :=
  ⟨⟨le_refl 1, zero_lt_one⟩,
    exponential_expected_sums_to_one 1 1 0 1 (le_refl 1) zero_lt_one⟩

/-- The `inside_interval` branch chain of `Uniform::get_expected`
(`src/dist/uniform.rs` lines 20-32): the portion of a bin `[interval,
interval + size]` that the code attributes to the support `[a, b]`. -/
def uniformInside (a b size interval : ℚ) : ℚ :=
  if a ≤ interval ∧ interval + size ≤ b then size
  else if interval + size < a then 0
  else if b ≤ interval then 0
  else if interval < a then size - (a - interval)
  else b - interval

/-- Loop body of `Uniform::get_expected` (`src/dist/uniform.rs` lines
19-35), recursing on the number of remaining bins; `interval` is the
running left edge. -/
def uniformAux (a b size : ℚ) : ℕ → ℚ → List ℚ
  | 0, _ => []
  | n + 1, interval =>
    (1 / (b - a) * uniformInside a b size interval) ::
      uniformAux a b size n (interval + size)

/-- Embeds `Uniform::get_expected` from `src/dist/uniform.rs` (lines 15-37):
`a`/`b` are the distribution's own `lower`/`upper` fields, the remaining
arguments the partition request. -/
def Uniform.get_expected (a b : ℚ) (intervals : ℕ) (lower upper : ℚ) : List ℚ :=
  uniformAux a b ((upper - lower) / intervals) intervals lower

/-- Spec-side definition, from the spec's words: the expected mass of a bin
`[lo, hi]` is the length of its overlap with the support `[a, b]` divided
by `(b - a)`. -/
def specOverlapMass (a b lo hi : ℚ) : ℚ :=
  max (min hi b - max lo a) 0 / (b - a)

/-- C8 counterexample: for `Uniform(1/4, 1/2)` and a single bin `[0, 1]`
strictly containing the support, the code returns mass 3 (it uses
`hi - a = 3/4` as the overlap) while overlap/(b-a) is `(1/4)/(1/4) = 1`. -/
theorem uniform_expected_straddling_bin :
    Uniform.get_expected (1 / 4) (1 / 2) 1 0 1 = [3] ∧
    specOverlapMass (1 / 4) (1 / 2) 0 1 = 1 ∧
    (Uniform.get_expected (1 / 4) (1 / 2) 1 0 1).getD 0 0 ≠
      specOverlapMass (1 / 4) (1 / 2) 0 1 := by
  refine ⟨?_, ?_, ?_⟩ <;>
    norm_num [Uniform.get_expected, uniformAux, uniformInside, specOverlapMass]

theorem uniformAux_getD (a b size : ℚ) :
    ∀ (n : ℕ) (start : ℚ) (i : ℕ), i < n →
      (uniformAux a b size n start).getD i 0 =
        1 / (b - a) * uniformInside a b size (start + i * size) := by
  intro n
  induction n with
  | zero => intro start i hi; omega
  | succ n ih =>
    intro start i hi
    cases i with
    | zero => simp [uniformAux]
    | succ i =>
      have hi2 : i < n := by omega
      simp only [uniformAux, List.getD_cons_succ]
      rw [ih (start + size) i hi2]
      have harg : start + size + (i : ℚ) * size = start + ((i + 1 : ℕ) : ℚ) * size := by
        push_cast
        ring
      rw [harg]

/-- C8 amended: the Uniform expected mass per bin equals the overlap of the
bin with `[a, b]` divided by `(b - a)` for every bin that does not strictly
contain the support (for a bin with `lo < a` and `b < hi` the code returns
`(hi - a)/(b - a)` instead); in particular, `Uniform(0, 5)` over 5 bins on
`[0, 5]` yields mass `0.2` per bin, and `Uniform(0, 1/2)` over 4 bins on
`[0, 1]` yields `[1/2, 1/2, 0, 0]`. -/
theorem uniform_expected_overlap_amended (a b lower upper : ℚ) (k i : ℕ)
    (hab : a < b) (hik : i < k) (hsize : 0 < (upper - lower) / k)
    (hstraddle : ¬(lower + i * ((upper - lower) / k) < a ∧
      b < lower + i * ((upper - lower) / k) + (upper - lower) / k)) :
    ((Uniform.get_expected a b k lower upper).getD i 0 =
      specOverlapMass a b (lower + i * ((upper - lower) / k))
        (lower + i * ((upper - lower) / k) + (upper - lower) / k)) ∧
    Uniform.get_expected 0 5 5 0 5 = [0.2, 0.2, 0.2, 0.2, 0.2] ∧
    Uniform.get_expected 0 (1 / 2) 4 0 1 = [1 / 2, 1 / 2, 0, 0] := by
  refine ⟨?_, ?_, ?_⟩
  · unfold Uniform.get_expected
    rw [uniformAux_getD a b ((upper - lower) / k) k lower i hik]
    set s : ℚ := (upper - lower) / k with hs
    set lo : ℚ := lower + i * s with hlo
    unfold uniformInside specOverlapMass
    split_ifs with h1 h2 h3 h4
    · have e1 : min (lo + s) b = lo + s := min_eq_left h1.2
      have e2 : max lo a = lo := max_eq_left h1.1
      have e3 : lo + s - lo = s := by ring
      rw [e1, e2, e3, max_eq_left hsize.le]
      ring
    · have e1 : min (lo + s) b = lo + s := min_eq_left (by linarith)
      have e2 : max lo a = a := max_eq_right (by linarith)
      rw [e1, e2]
      have e3 : max (lo + s - a) 0 = 0 := max_eq_right (by linarith)
      rw [e3]
      ring
    · have e1 : min (lo + s) b = b := min_eq_right (by linarith)
      have e2 : max lo a = lo := max_eq_left (by linarith)
      rw [e1, e2]
      have e3 : max (b - lo) 0 = 0 := max_eq_right (by linarith)
      rw [e3]
      ring
    · push_neg at h1 hstraddle
      have hhib : lo + s ≤ b := hstraddle h4
      have hlos : a ≤ lo + s := le_of_not_lt h2
      have e1 : min (lo + s) b = lo + s := min_eq_left hhib
      have e2 : max lo a = a := max_eq_right h4.le
      rw [e1, e2]
      have e3 : max (lo + s - a) 0 = lo + s - a := max_eq_left (by linarith)
      rw [e3]
      ring
    · push_neg at h1
      have ha : a ≤ lo := le_of_not_lt h4
      have hb : b < lo + s := h1 ha
      have hlob : lo < b := lt_of_not_le h3
      have e1 : min (lo + s) b = b := min_eq_right hb.le
      have e2 : max lo a = lo := max_eq_left ha
      rw [e1, e2]
      have e3 : max (b - lo) 0 = b - lo := max_eq_left (by linarith)
      rw [e3]
      ring
  · norm_num [Uniform.get_expected, uniformAux, uniformInside]
  · norm_num [Uniform.get_expected, uniformAux, uniformInside]

/-- Witness for the amended C8: `Uniform(0, 5)`, 5 bins over `[0, 5]`,
first bin. -/
theorem uniform_expected_overlap_amended_witness :
    ((0 : ℚ) < 5 ∧ 0 < 5 ∧ (0 : ℚ) < (5 - 0) / ((5 : ℕ) : ℚ) ∧
      ¬((0 : ℚ) + ((0 : ℕ) : ℚ) * ((5 - 0) / ((5 : ℕ) : ℚ)) < 0 ∧
        (5 : ℚ) < 0 + ((0 : ℕ) : ℚ) * ((5 - 0) / ((5 : ℕ) : ℚ)) +
          (5 - 0) / ((5 : ℕ) : ℚ))) ∧
    (((Uniform.get_expected 0 5 5 0 5).getD 0 0 =
      specOverlapMass 0 5 (0 + ((0 : ℕ) : ℚ) * ((5 - 0) / ((5 : ℕ) : ℚ)))
        (0 + ((0 : ℕ) : ℚ) * ((5 - 0) / ((5 : ℕ) : ℚ)) +
          (5 - 0) / ((5 : ℕ) : ℚ))) ∧
    Uniform.get_expected 0 5 5 0 5 = [0.2, 0.2, 0.2, 0.2, 0.2] ∧
    Uniform.get_expected 0 (1 / 2) 4 0 1 = [1 / 2, 1 / 2, 0, 0]) :=
  ⟨⟨by norm_num, by norm_num, by norm_num, by norm_num⟩,
    uniform_expected_overlap_amended 0 5 0 5 5 0 (by norm_num) (by norm_num)
      (by norm_num) (by norm_num)⟩
/-- The critical-value lookup table of `chi_squared_critical_value`
(`src/stats/mod.rs` lines 261-379): row `r` holds the upper critical
values of the chi-squared distribution for the `r`-th tabulated
significance level (row 7, index 6, is the `alpha = 0.05` column used by
`full_statistics`), indexed by degrees of freedom 1..100.  The `f32`
literals are modelled as exact rationals. -/
def chiTable : List (List ℚ) := [
  [
    0.0, 0.002, 0.024, 0.091, 0.21, 0.381, 0.598, 0.857, 1.152, 1.479,
    1.8341, 2.2142, 2.6173, 3.0414, 3.4835, 3.9426, 4.4167, 4.9058, 5.4079, 5.921,
    6.4471, 6.9832, 7.5293, 8.0854, 8.6495, 9.2226, 9.8037, 10.3918, 10.9869, 11.588,
    12.1961, 12.8112, 13.4313, 14.0574, 14.6885, 15.3246, 15.9657, 16.6118, 17.2629, 17.916,
    18.5751, 19.2392, 19.9063, 20.5764, 21.2515, 21.9296, 22.6107, 23.2958, 23.9839, 24.674,
    25.3681, 26.0652, 26.7653, 27.4684, 28.1735, 28.8816, 29.5927, 30.3058, 31.0209, 31.738,
    32.4591, 33.1812, 33.9063, 34.6334, 35.3625, 36.0936, 36.8267, 37.5618, 38.2989, 39.036,
    39.7771, 40.5192, 41.2643, 42.0104, 42.7575, 43.5076, 44.2587, 45.0108, 45.7649, 46.52,
    47.2771, 48.0362, 48.7963, 49.5574, 50.3205, 51.0856, 51.8507, 52.6178, 53.3869, 54.155,
    54.9261, 55.6982, 56.4723, 57.2464, 58.0225, 58.7996, 59.5777, 60.3568, 61.1379, 61.918
  ],
  [
    0.0, 0.02, 0.115, 0.297, 0.554, 0.872, 1.239, 1.646, 2.088, 2.558,
    3.053, 3.571, 4.107, 4.66, 5.229, 5.812, 6.408, 7.015, 7.633, 8.26,
    8.897, 9.542, 10.196, 10.856, 11.524, 12.198, 12.879, 13.565, 14.256, 14.953,
    15.655, 16.362, 17.074, 17.789, 18.509, 19.233, 19.96, 20.691, 21.426, 22.164,
    22.906, 23.65, 24.398, 25.148, 25.901, 26.657, 27.416, 28.177, 28.941, 29.707,
    30.475, 31.246, 32.018, 32.793, 33.57, 34.35, 35.131, 35.913, 36.698, 37.485,
    38.273, 39.063, 39.855, 40.649, 41.444, 42.24, 43.038, 43.838, 44.639, 45.442,
    46.246, 47.051, 47.858, 48.666, 49.475, 50.286, 51.097, 51.91, 52.725, 53.54,
    54.357, 55.174, 55.993, 56.813, 57.634, 58.456, 59.279, 60.103, 60.928, 61.754,
    62.581, 63.409, 64.238, 65.068, 65.898, 66.73, 67.562, 68.396, 69.23, 70.065
  ],
  [
    0.001, 0.051, 0.216, 0.484, 0.831, 1.237, 1.69, 2.18, 2.7, 3.247,
    3.816, 4.404, 5.009, 5.629, 6.262, 6.908, 7.564, 8.231, 8.907, 9.591,
    10.283, 10.982, 11.689, 12.401, 13.12, 13.844, 14.573, 15.308, 16.047, 16.791,
    17.539, 18.291, 19.047, 19.806, 20.569, 21.336, 22.106, 22.878, 23.654, 24.433,
    25.215, 25.999, 26.785, 27.575, 28.366, 29.16, 29.956, 30.755, 31.555, 32.357,
    33.162, 33.968, 34.776, 35.586, 36.398, 37.212, 38.027, 38.844, 39.662, 40.482,
    41.303, 42.126, 42.95, 43.776, 44.603, 45.431, 46.261, 47.092, 47.924, 48.758,
    49.592, 50.428, 51.265, 52.103, 52.942, 53.782, 54.623, 55.466, 56.309, 57.153,
    57.998, 58.845, 59.692, 60.54, 61.389, 62.239, 63.089, 63.941, 64.793, 65.647,
    66.501, 67.356, 68.211, 69.068, 69.925, 70.783, 71.642, 72.501, 73.361, 74.222
  ],
  [
    0.004, 0.103, 0.352, 0.711, 1.145, 1.635, 2.167, 2.733, 3.325, 3.94,
    4.575, 5.226, 5.892, 6.571, 7.261, 7.962, 8.672, 9.39, 10.117, 10.851,
    11.591, 12.338, 13.091, 13.848, 14.611, 15.379, 16.151, 16.928, 17.708, 18.493,
    19.281, 20.072, 20.867, 21.664, 22.465, 23.269, 24.075, 24.884, 25.695, 26.509,
    27.326, 28.144, 28.965, 29.787, 30.612, 31.439, 32.268, 33.098, 33.93, 34.764,
    35.6, 36.437, 37.276, 38.116, 38.958, 39.801, 40.646, 41.492, 42.339, 43.188,
    44.038, 44.889, 45.741, 46.595, 47.45, 48.305, 49.162, 50.02, 50.879, 51.739,
    52.6, 53.462, 54.325, 55.189, 56.054, 56.92, 57.786, 58.654, 59.522, 60.391,
    61.261, 62.132, 63.004, 63.876, 64.749, 65.623, 66.498, 67.373, 68.249, 69.126,
    70.003, 70.882, 71.76, 72.64, 73.52, 74.401, 75.282, 76.164, 77.046, 77.929
  ],
  [
    0.016, 0.211, 0.584, 1.064, 1.61, 2.204, 2.833, 3.49, 4.168, 4.865,
    5.578, 6.304, 7.042, 7.79, 8.547, 9.312, 10.085, 10.865, 11.651, 12.443,
    13.24, 14.041, 14.848, 15.659, 16.473, 17.292, 18.114, 18.939, 19.768, 20.599,
    21.434, 22.271, 23.11, 23.952, 24.797, 25.643, 26.492, 27.343, 28.196, 29.051,
    29.907, 30.765, 31.625, 32.487, 33.35, 34.215, 35.081, 35.949, 36.818, 37.689,
    38.56, 39.433, 40.308, 41.183, 42.06, 42.937, 43.816, 44.696, 45.577, 46.459,
    47.342, 48.226, 49.111, 49.996, 50.883, 51.77, 52.659, 53.548, 54.438, 55.329,
    56.221, 57.113, 58.006, 58.9, 59.795, 60.69, 61.586, 62.483, 63.38, 64.278,
    65.176, 66.076, 66.976, 67.876, 68.777, 69.679, 70.581, 71.484, 72.387, 73.291,
    74.196, 75.1, 76.006, 76.912, 77.818, 78.725, 79.633, 80.541, 81.449, 82.358
  ],
  [
    2.706, 4.605, 6.251, 7.779, 9.236, 10.645, 12.017, 13.362, 14.684, 15.987,
    17.275, 18.549, 19.812, 21.064, 22.307, 23.542, 24.769, 25.989, 27.204, 28.412,
    29.615, 30.813, 32.007, 33.196, 34.382, 35.563, 36.741, 37.916, 39.087, 40.256,
    41.422, 42.585, 43.745, 44.903, 46.059, 47.212, 48.363, 49.513, 50.66, 51.805,
    52.949, 54.09, 55.23, 56.369, 57.505, 58.641, 59.774, 60.907, 62.038, 63.167,
    64.295, 65.422, 66.548, 67.673, 68.796, 69.919, 71.04, 72.16, 73.279, 74.397,
    75.514, 76.63, 77.745, 78.86, 79.973, 81.085, 82.197, 83.308, 84.418, 85.527,
    86.635, 87.743, 88.85, 89.956, 91.061, 92.166, 93.27, 94.374, 95.476, 96.578,
    97.68, 98.78, 99.88, 100.98, 102.079, 103.177, 104.275, 105.372, 106.469, 107.565,
    108.661, 109.756, 110.85, 111.944, 113.038, 114.131, 115.223, 116.315, 117.407, 118.498
  ],
  [
    3.841, 5.991, 7.815, 9.488, 11.07, 12.592, 14.067, 15.507, 16.919, 18.307,
    19.675, 21.026, 22.362, 23.685, 24.996, 26.296, 27.587, 28.869, 30.144, 31.41,
    32.671, 33.924, 35.172, 36.415, 37.652, 38.885, 40.113, 41.337, 42.557, 43.773,
    44.985, 46.194, 47.4, 48.602, 49.802, 50.998, 52.192, 53.384, 54.572, 55.758,
    56.942, 58.124, 59.304, 60.481, 61.656, 62.83, 64.001, 65.171, 66.339, 67.505,
    68.669, 69.832, 70.993, 72.153, 73.311, 74.468, 75.624, 76.778, 77.931, 79.082,
    80.232, 81.381, 82.529, 83.675, 84.821, 85.965, 87.108, 88.25, 89.391, 90.531,
    91.67, 92.808, 93.945, 95.081, 96.217, 97.351, 98.484, 99.617, 100.749, 101.879,
    103.01, 104.139, 105.267, 106.395, 107.522, 108.648, 109.773, 110.898, 112.022, 113.145,
    114.268, 115.39, 116.511, 117.632, 118.752, 119.871, 120.99, 122.108, 123.225, 124.342
  ],
  [
    5.024, 7.378, 9.348, 11.143, 12.833, 14.449, 16.013, 17.535, 19.023, 20.483,
    21.92, 23.337, 24.736, 26.119, 27.488, 28.845, 30.191, 31.526, 32.852, 34.17,
    35.479, 36.781, 38.076, 39.364, 40.646, 41.923, 43.195, 44.461, 45.722, 46.979,
    48.232, 49.48, 50.725, 51.966, 53.203, 54.437, 55.668, 56.896, 58.12, 59.342,
    60.561, 61.777, 62.99, 64.201, 65.41, 66.617, 67.821, 69.023, 70.222, 71.42,
    72.616, 73.81, 75.002, 76.192, 77.38, 78.567, 79.752, 80.936, 82.117, 83.298,
    84.476, 85.654, 86.83, 88.004, 89.177, 90.349, 91.519, 92.689, 93.856, 95.023,
    96.189, 97.353, 98.516, 99.678, 100.839, 101.999, 103.158, 104.316, 105.473, 106.629,
    107.783, 108.937, 110.09, 111.242, 112.393, 113.544, 114.693, 115.841, 116.989, 118.136,
    119.282, 120.427, 121.571, 122.715, 123.858, 125.0, 126.141, 127.282, 128.422, 129.561
  ],
  [
    6.635, 9.21, 11.345, 13.277, 15.086, 16.812, 18.475, 20.09, 21.666, 23.209,
    24.725, 26.217, 27.688, 29.141, 30.578, 32.0, 33.409, 34.805, 36.191, 37.566,
    38.932, 40.289, 41.638, 42.98, 44.314, 45.642, 46.963, 48.278, 49.588, 50.892,
    52.191, 53.486, 54.776, 56.061, 57.342, 58.619, 59.893, 61.162, 62.428, 63.691,
    64.95, 66.206, 67.459, 68.71, 69.957, 71.201, 72.443, 73.683, 74.919, 76.154,
    77.386, 78.616, 79.843, 81.069, 82.292, 83.513, 84.733, 85.95, 87.166, 88.379,
    89.591, 90.802, 92.01, 93.217, 94.422, 95.626, 96.828, 98.028, 99.228, 100.425,
    101.621, 102.816, 104.01, 105.202, 106.393, 107.583, 108.771, 109.958, 111.144, 112.329,
    113.512, 114.695, 115.876, 117.057, 118.236, 119.414, 120.591, 121.767, 122.942, 124.116,
    125.289, 126.462, 127.633, 128.803, 129.973, 131.141, 132.309, 133.476, 134.642, 135.807
  ],
  [
    10.828, 13.816, 16.266, 18.467, 20.515, 22.458, 24.322, 26.125, 27.877, 29.588,
    31.264, 32.91, 34.528, 36.123, 37.697, 39.252, 40.79, 42.312, 43.82, 45.315,
    46.797, 48.268, 49.728, 51.179, 52.62, 54.052, 55.476, 56.892, 58.301, 59.703,
    61.098, 62.487, 63.87, 65.247, 66.619, 67.985, 69.347, 70.703, 72.055, 73.402,
    74.745, 76.084, 77.419, 78.75, 80.077, 81.4, 82.72, 84.037, 85.351, 86.661,
    87.968, 89.272, 90.573, 91.872, 93.168, 94.461, 95.751, 97.039, 98.324, 99.607,
    100.888, 102.166, 103.442, 104.716, 105.988, 107.258, 108.526, 109.791, 111.055, 112.317,
    113.577, 114.835, 116.092, 117.346, 118.599, 119.85, 121.1, 122.348, 123.594, 124.839,
    126.083, 127.324, 128.565, 129.804, 131.041, 132.277, 133.512, 134.746, 135.978, 137.208,
    138.438, 139.666, 140.893, 142.119, 143.344, 144.567, 145.789, 147.01, 148.23, 149.449
  ]
]

/-- Embeds `chi_squared_critical_value` from `src/stats/mod.rs` (lines 260-382):
degrees of freedom are capped at 100 and the table is indexed at
`[alpha - 1][df - 1]`.  (For `alpha = 0` or `df = 0` the Rust index
computation would go out of bounds and panic; both out-of-range lookups
are modelled with `getD` defaults and are outside every use in scope:
`full_statistics` passes `alpha = 7` and a clamped positive `df`.) -/
def chi_squared_critical_value (df alpha : ℕ) : ℚ :=
  ((chiTable.getD (alpha - 1) []).getD (min df 100 - 1) 0)

/-- C4: the critical value resolver, queried in its `alpha = 0.05` column
(table row index 7, the one `full_statistics` passes), matches the
standard chi-squared table to 2 decimal places: 7.81 at `df = 3`, 11.07 at
`df = 5` and 14.06 at `df = 7` (the tabulated entries are 7.815, 11.07 and
14.067). -/
theorem chi_squared_critical_value_standard :
    (chi_squared_critical_value 3 7 = 7.815 ∧
      7.81 ≤ chi_squared_critical_value 3 7 ∧
      chi_squared_critical_value 3 7 < 7.82) ∧
    (chi_squared_critical_value 5 7 = 11.07 ∧
      11.07 ≤ chi_squared_critical_value 5 7 ∧
      chi_squared_critical_value 5 7 < 11.08) ∧
    (chi_squared_critical_value 7 7 = 14.067 ∧
      14.06 ≤ chi_squared_critical_value 7 7 ∧
      chi_squared_critical_value 7 7 < 14.07) := by
  have h3 : chi_squared_critical_value 3 7 = 7.815 := rfl
  have h5 : chi_squared_critical_value 5 7 = 11.07 := rfl
  have h7 : chi_squared_critical_value 7 7 = 14.067 := rfl
  refine ⟨⟨h3, ?_, ?_⟩, ⟨h5, ?_, ?_⟩, ⟨h7, ?_, ?_⟩⟩ <;>
    simp only [h3, h5, h7] <;> norm_num

/-- Wrapping `usize` subtraction `a - b` of release-mode Rust, for
operands below `2 ^ 64`. -/
def usizeSub (a b : ℕ) : ℕ := (a % 2 ^ 64 + (2 ^ 64 - b % 2 ^ 64)) % 2 ^ 64

/-- The counting loop of `parse_intervals` (`src/stats/mod.rs` lines
250-256): every sample of the slice increments the bin
`min((v - lower)/size as usize, intervals - 1)` of the accumulator. -/
def countSamples (intervals : ℕ) (lower size : ℚ) : List ℚ → List ℕ → List ℕ
  | [], acc => acc
  | v :: rest, acc =>
    let ind := min (castU64 ((v - lower) / size)) (intervals - 1)
    countSamples intervals lower size rest (acc.set ind (acc.getD ind 0 + 1))

/-- Embeds `parse_intervals` from `src/stats/mod.rs` (lines 240-258): count the
samples of the slice `nums[start..stop]` into a private frequency vector
of length `intervals`; `nums.get(start..stop)` is `Some` exactly when
`start ≤ stop ≤ len`, and on `None` the zero vector is returned. -/
def parse_intervals (nums : List ℚ) (intervals : ℕ) (lower size : ℚ)
    (start stop : ℕ) : List ℕ :=
  if start ≤ stop ∧ stop ≤ nums.length then
    countSamples intervals lower size ((nums.drop start).take (stop - start))
      (List.replicate intervals 0)
  else
    List.replicate intervals 0

/-- The slice size `(nums.len() as f64 / chunks as f64).ceil() as usize` of
`full_statistics` (`src/stats/mod.rs` line 117), where `chunks` is
`threads - 2`; the `f64` division is modelled exactly over `ℚ`. -/
def sliceSize (len chunks : ℕ) : ℕ :=
  (Int.ceil ((len : ℚ) / (chunks : ℚ))).toNat

/-- The chunked binning of `full_statistics` (`src/stats/mod.rs` lines
114-155): the sample vector is cut into `chunks` contiguous slices with
`start = i * slice_size` and `end = start + slice_size.min(len - start)`
(the inner subtraction wrapping in release mode), each slice is counted
independently by `parse_intervals`, and the partial frequency vectors are
summed element-wise into the observed-frequency vector. -/
def binChunks (nums : List ℚ) (intervals : ℕ) (lower size : ℚ)
    (chunks : ℕ) : List ℕ :=
  (List.range chunks).foldl
    (fun acc i =>
      List.zipWith (· + ·) acc
        (parse_intervals nums intervals lower size
          (i * sliceSize nums.length chunks)
          (i * sliceSize nums.length chunks +
            min (sliceSize nums.length chunks)
              (usizeSub nums.length (i * sliceSize nums.length chunks)))))
    (List.replicate intervals 0)

theorem getD_set_succ_sum (acc : List ℕ) (i : ℕ) (h : i < acc.length) :
    (acc.set i (acc.getD i 0 + 1)).sum = acc.sum + 1 := by
  induction acc generalizing i with
  | nil => simp at h
  | cons a rest ih =>
    cases i with
    | zero => simp [List.getD]; omega
    | succ i =>
      show (a :: rest.set i (rest.getD i 0 + 1)).sum = (a :: rest).sum + 1
      simp only [List.sum_cons]
      have hrec := ih i (by simpa using h)
      omega

theorem countSamples_length (intervals : ℕ) (lower size : ℚ) :
    ∀ (vs : List ℚ) (acc : List ℕ),
      (countSamples intervals lower size vs acc).length = acc.length
  | [], _ => rfl
  | v :: rest, acc => by
    simp only [countSamples]
    rw [countSamples_length intervals lower size rest]
    simp

theorem countSamples_sum (intervals : ℕ) (lower size : ℚ) (hk : 1 ≤ intervals) :
    ∀ (vs : List ℚ) (acc : List ℕ), acc.length = intervals →
      (countSamples intervals lower size vs acc).sum = acc.sum + vs.length := by
  intro vs
  induction vs with
  | nil => intro acc _; simp [countSamples]
  | cons v rest ih =>
    intro acc hlen
    have hind : min (castU64 ((v - lower) / size)) (intervals - 1) < acc.length := by
      rw [hlen]; omega
    simp only [countSamples]
    rw [ih _ (by rw [List.length_set]; exact hlen)]
    rw [getD_set_succ_sum acc _ hind]
    simp only [List.length_cons]
    omega

theorem parse_intervals_length (nums : List ℚ) (intervals : ℕ)
    (lower size : ℚ) (start stop : ℕ) :
    (parse_intervals nums intervals lower size start stop).length = intervals := by
  unfold parse_intervals
  split
  · rw [countSamples_length]; simp
  · simp

theorem parse_intervals_sum (nums : List ℚ) (intervals : ℕ)
    (lower size : ℚ) (start stop : ℕ) (hk : 1 ≤ intervals)
    (h1 : start ≤ stop) (h2 : stop ≤ nums.length) :
    (parse_intervals nums intervals lower size start stop).sum = stop - start := by
  unfold parse_intervals
  rw [if_pos ⟨h1, h2⟩]
  rw [countSamples_sum intervals lower size hk _ _ (by simp)]
  have hlen : ((nums.drop start).take (stop - start)).length = stop - start := by
    rw [List.length_take, List.length_drop]
    omega
  rw [hlen]
  simp

theorem parse_intervals_oob (nums : List ℚ) (intervals : ℕ)
    (lower size : ℚ) (start stop : ℕ)
    (h : ¬(start ≤ stop ∧ stop ≤ nums.length)) :
    parse_intervals nums intervals lower size start stop =
      List.replicate intervals 0 := by
  unfold parse_intervals
  rw [if_neg h]

theorem zipWith_add_sum : ∀ (a b : List ℕ), a.length = b.length →
    (List.zipWith (· + ·) a b).sum = a.sum + b.sum
  | [], [], _ => rfl
  | [], _ :: _, h => by simp at h
  | _ :: _, [], h => by simp at h
  | a :: as, b :: bs, h => by
    simp only [List.zipWith_cons_cons, List.sum_cons]
    rw [zipWith_add_sum as bs (by simpa using h)]
    omega

theorem foldl_zipWith_length (intervals : ℕ) (g : ℕ → List ℕ)
    (hg : ∀ i, (g i).length = intervals) :
    ∀ (idxs : List ℕ) (acc : List ℕ), acc.length = intervals →
      (idxs.foldl (fun a i => List.zipWith (· + ·) a (g i)) acc).length = intervals
  | [], _, h => h
  | i :: is, acc, h => by
    simp only [List.foldl_cons]
    apply foldl_zipWith_length intervals g hg is
    rw [List.length_zipWith, h, hg i]
    simp

theorem foldl_zipWith_sum (intervals : ℕ) (g : ℕ → List ℕ)
    (hg : ∀ i, (g i).length = intervals) :
    ∀ (idxs : List ℕ) (acc : List ℕ), acc.length = intervals →
      (idxs.foldl (fun a i => List.zipWith (· + ·) a (g i)) acc).sum =
        acc.sum + (idxs.map (fun i => (g i).sum)).sum
  | [], _, _ => by simp
  | i :: is, acc, h => by
    simp only [List.foldl_cons, List.map_cons, List.sum_cons]
    rw [foldl_zipWith_sum intervals g hg is _
      (by rw [List.length_zipWith, h, hg i]; simp)]
    rw [zipWith_add_sum acc (g i) (by rw [h, hg i])]
    omega

theorem chunk_sum_min (s : ℕ) (len : ℕ) : ∀ (T : ℕ),
    ((List.range T).map (fun i => min s (len - i * s))).sum = min (T * s) len := by
  intro T
  induction T with
  | zero => simp
  | succ T ih =>
    rw [List.range_succ, List.map_append, List.sum_append, ih]
    simp only [List.map_cons, List.map_nil, List.sum_cons, List.sum_nil]
    have hTs : (T + 1) * s = T * s + s := by ring
    rw [hTs]
    omega

theorem sliceSize_bounds (len chunks : ℕ) (hc : 1 ≤ chunks) :
    len ≤ chunks * sliceSize len chunks ∧
      chunks * sliceSize len chunks ≤ len + chunks := by
  have hc0 : (0 : ℚ) < (chunks : ℚ) := by exact_mod_cast hc
  have hx0 : (0 : ℚ) ≤ (len : ℚ) / (chunks : ℚ) := div_nonneg (by positivity) hc0.le
  have hceil0 : 0 ≤ ⌈(len : ℚ) / (chunks : ℚ)⌉ := Int.ceil_nonneg hx0
  have hcast : ((sliceSize len chunks : ℕ) : ℚ) =
      (⌈(len : ℚ) / (chunks : ℚ)⌉ : ℚ) := by
    unfold sliceSize
    exact_mod_cast Int.toNat_of_nonneg hceil0
  have hmul : (chunks : ℚ) * ((len : ℚ) / (chunks : ℚ)) = (len : ℚ) := by
    field_simp
  constructor
  · have h1 : (len : ℚ) / (chunks : ℚ) ≤ (⌈(len : ℚ) / (chunks : ℚ)⌉ : ℚ) :=
      Int.le_ceil _
    have h2 : (len : ℚ) ≤ (chunks : ℚ) * ((sliceSize len chunks : ℕ) : ℚ) := by
      rw [hcast]
      calc (len : ℚ) = (chunks : ℚ) * ((len : ℚ) / (chunks : ℚ)) := hmul.symm
        _ ≤ (chunks : ℚ) * (⌈(len : ℚ) / (chunks : ℚ)⌉ : ℚ) :=
          mul_le_mul_of_nonneg_left h1 hc0.le
    exact_mod_cast h2
  · have h1 : (⌈(len : ℚ) / (chunks : ℚ)⌉ : ℚ) < (len : ℚ) / (chunks : ℚ) + 1 :=
      Int.ceil_lt_add_one _
    have h2 : (chunks : ℚ) * ((sliceSize len chunks : ℕ) : ℚ) <
        (len : ℚ) + (chunks : ℚ) := by
      rw [hcast]
      calc (chunks : ℚ) * (⌈(len : ℚ) / (chunks : ℚ)⌉ : ℚ)
          < (chunks : ℚ) * ((len : ℚ) / (chunks : ℚ) + 1) :=
            mul_lt_mul_of_pos_left h1 hc0
        _ = (len : ℚ) + (chunks : ℚ) := by rw [mul_add, hmul, mul_one]
    have h3 : chunks * sliceSize len chunks < len + chunks := by exact_mod_cast h2
    omega

theorem parse_chunk_sum (nums : List ℚ) (intervals : ℕ) (lower size : ℚ)
    (chunks i : ℕ) (hk : 1 ≤ intervals) (hc : 1 ≤ chunks) (hi : i < chunks)
    (hmem : nums.length + chunks ≤ 2 ^ 64) :
    (parse_intervals nums intervals lower size
        (i * sliceSize nums.length chunks)
        (i * sliceSize nums.length chunks +
          min (sliceSize nums.length chunks)
            (usizeSub nums.length (i * sliceSize nums.length chunks)))).sum =
      min (sliceSize nums.length chunks)
        (nums.length - i * sliceSize nums.length chunks) := by
  obtain ⟨hlo, hhi⟩ := sliceSize_bounds nums.length chunks hc
  set len := nums.length with hlendef
  set s := sliceSize len chunks with hs
  have his : i * s + s ≤ 2 ^ 64 := by
    have h1 : (i + 1) * s ≤ chunks * s := Nat.mul_le_mul_right s (by omega)
    have h2 : (i + 1) * s = i * s + s := by ring
    omega
  by_cases hcase : i * s ≤ len
  · have hsub : usizeSub len (i * s) = len - i * s := by
      unfold usizeSub
      omega
    rw [hsub]
    rw [parse_intervals_sum nums intervals lower size _ _ hk
      (Nat.le_add_right _ _) (by omega)]
    omega
  · push_neg at hcase
    have hs1 : 1 ≤ s := by
      rcases Nat.eq_zero_or_pos s with h0 | h1
      · rw [h0] at hcase; simp at hcase
      · exact h1
    have hsub : usizeSub len (i * s) = 2 ^ 64 - (i * s - len) := by
      unfold usizeSub
      omega
    rw [hsub]
    have hmin : min s (2 ^ 64 - (i * s - len)) = s := by omega
    rw [hmin]
    rw [parse_intervals_oob nums intervals lower size _ _ (by
      rintro ⟨-, hB⟩
      omega)]
    have hz : len - i * s = 0 := by omega
    rw [hz]
    simp

/-- C6: for every sample vector, interval count `k ≥ 1` with positive bin
width, and chunk count `chunks ≥ 1` (with the vector and chunk count in
`usize` range), the chunked binning produces a frequency vector of length
`k` with non-negative entries whose sum is exactly the number of samples:
every sample is counted exactly once. -/
theorem binning_counts_every_sample (nums : List ℚ) (intervals : ℕ)
    (lower size : ℚ) (chunks : ℕ) (hk : 1 ≤ intervals) (hsize : 0 < size)
    (hc : 1 ≤ chunks) (hmem : nums.length + chunks ≤ 2 ^ 64) :
    (binChunks nums intervals lower size chunks).length = intervals ∧
    (binChunks nums intervals lower size chunks).sum = nums.length ∧
    ∀ x ∈ binChunks nums intervals lower size chunks, 0 ≤ x := by
  refine ⟨?_, ?_, fun x _ => Nat.zero_le x⟩
  · exact foldl_zipWith_length intervals
      (fun i => parse_intervals nums intervals lower size
        (i * sliceSize nums.length chunks)
        (i * sliceSize nums.length chunks +
          min (sliceSize nums.length chunks)
            (usizeSub nums.length (i * sliceSize nums.length chunks))))
      (fun i => parse_intervals_length nums intervals lower size _ _)
      (List.range chunks) (List.replicate intervals 0) (by simp)
  · have hmain := foldl_zipWith_sum intervals
      (fun i => parse_intervals nums intervals lower size
        (i * sliceSize nums.length chunks)
        (i * sliceSize nums.length chunks +
          min (sliceSize nums.length chunks)
            (usizeSub nums.length (i * sliceSize nums.length chunks))))
      (fun i => parse_intervals_length nums intervals lower size _ _)
      (List.range chunks) (List.replicate intervals 0) (by simp)
    have hmap : ((List.range chunks).map (fun i =>
        (parse_intervals nums intervals lower size
          (i * sliceSize nums.length chunks)
          (i * sliceSize nums.length chunks +
            min (sliceSize nums.length chunks)
              (usizeSub nums.length (i * sliceSize nums.length chunks)))).sum)) =
        (List.range chunks).map (fun i =>
          min (sliceSize nums.length chunks)
            (nums.length - i * sliceSize nums.length chunks)) := by
      apply List.map_congr_left
      intro i hi
      exact parse_chunk_sum nums intervals lower size chunks i hk hc
        (List.mem_range.mp hi) hmem
    rw [hmap] at hmain
    rw [chunk_sum_min] at hmain
    have hbounds := sliceSize_bounds nums.length chunks hc
    have hfin : min (chunks * sliceSize nums.length chunks) nums.length =
        nums.length := min_eq_right hbounds.1
    rw [hfin] at hmain
    simpa using hmain

/-- Witness for C6: three samples, two bins of width 1, two chunks. -/
theorem binning_counts_every_sample_witness :
    (1 ≤ 2 ∧ (0 : ℚ) < 1 ∧ 1 ≤ 2 ∧
      ([(1 : ℚ) / 2, 3 / 2, 5 / 2] : List ℚ).length + 2 ≤ 2 ^ 64) ∧
    ((binChunks [(1 : ℚ) / 2, 3 / 2, 5 / 2] 2 0 1 2).length = 2 ∧
      (binChunks [(1 : ℚ) / 2, 3 / 2, 5 / 2] 2 0 1 2).sum =
        ([(1 : ℚ) / 2, 3 / 2, 5 / 2] : List ℚ).length ∧
      ∀ x ∈ binChunks [(1 : ℚ) / 2, 3 / 2, 5 / 2] 2 0 1 2, 0 ≤ x) :=
  ⟨⟨by norm_num, by norm_num, by norm_num, by norm_num⟩,
    binning_counts_every_sample [(1 : ℚ) / 2, 3 / 2, 5 / 2] 2 0 1 2
      (by norm_num) (by norm_num) (by norm_num) (by norm_num)⟩

/-- Wrapping `usize` multiplication of release-mode Rust. -/
def usizeMul (a b : ℕ) : ℕ := a * b % 2 ^ 64

/-- Wrapping `usize` addition of release-mode Rust. -/
def usizeAdd (a b : ℕ) : ℕ := (a + b) % 2 ^ 64

/-- Embeds `get_page` from `src/list/mod.rs` (lines 3-13): `start` is
`30 * (pagenum - 1)` and `stop` is `(start + 30).min(len)` in wrapping
`usize` arithmetic; `nums.get(start..stop)` is `Some` exactly when
`start ≤ stop ≤ len`, and on `None` the empty vector is returned. -/
def get_page (nums : List ℚ) (pagenum : ℕ) : List ℚ :=
  let start := usizeMul 30 (usizeSub pagenum 1)
  let stop := min (usizeAdd start 30) nums.length
  if start ≤ stop ∧ stop ≤ nums.length then
    (nums.drop start).take (stop - start)
  else
    []

theorem take_min_length (l : List ℚ) (n : ℕ) :
    l.take (min n l.length) = l.take n := by
  rcases le_total n l.length with h | h
  · rw [min_eq_left h]
  · rw [min_eq_right h, List.take_length, List.take_of_length_le h]

/-- C9 counterexample: page 1 of a 5-element retained sample is the whole
5-element vector, which is neither a fixed-size 30-element slice nor
empty. -/
theorem get_page_short_last_page :
    get_page [1, 2, 3, 4, 5] 1 = [1, 2, 3, 4, 5] ∧
    (get_page [1, 2, 3, 4, 5] 1).length = 5 ∧
    get_page [1, 2, 3, 4, 5] 1 ≠ [] := by
  refine ⟨rfl, rfl, ?_⟩
  rw [show get_page [1, 2, 3, 4, 5] 1 = [1, 2, 3, 4, 5] from rfl]
  simp

/-- C9 amended: for a page number `p ≥ 1` whose slice index does not wrap
(`30 * p ≤ 2 ^ 64`), `get_page` returns the up-to-30-element slice
`nums[30(p-1) .. 30(p-1)+30]` — the last non-empty page may be shorter
than 30 — and such pages entirely past the end return the empty sequence;
page 0 wraps to start index `2 ^ 64 - 30` and returns empty; but
out-of-range pages are not uniformly empty: for page numbers whose
release-mode index computation wraps around, in-range elements are
returned again — `p = 2 ^ 63 + 1` wraps `30 * (p - 1)` to start 0 and
yields the first up-to-30 elements, non-empty whenever the sample is. -/
theorem get_page_amended (nums : List ℚ) (p : ℕ) (hlen : nums.length < 2 ^ 64)
    (hp1 : 1 ≤ p) (hp : 30 * p ≤ 2 ^ 64) :
    get_page nums p = (nums.drop (30 * (p - 1))).take 30 ∧
    get_page nums 0 = [] ∧
    (nums.length ≤ 30 * (p - 1) → get_page nums p = []) ∧
    get_page nums (2 ^ 63 + 1) = nums.take 30 := by
  have hsub : usizeSub p 1 = p - 1 := by unfold usizeSub; omega
  have hmul : usizeMul 30 (p - 1) = 30 * (p - 1) := by unfold usizeMul; omega
  have hadd : usizeAdd (30 * (p - 1)) 30 = 30 * (p - 1) + 30 := by
    unfold usizeAdd; omega
  have hmain : get_page nums p = (nums.drop (30 * (p - 1))).take 30 := by
    unfold get_page
    simp only [hsub, hmul]
    rw [hadd]
    by_cases hcase : 30 * (p - 1) ≤ nums.length
    · rw [if_pos ⟨by omega, min_le_right _ _⟩]
      have harith : min (30 * (p - 1) + 30) nums.length - 30 * (p - 1) =
          min 30 (nums.length - 30 * (p - 1)) := by omega
      rw [harith, ← List.length_drop (30 * (p - 1)) nums]
      exact take_min_length _ 30
    · rw [if_neg (by rintro ⟨hA, -⟩; omega)]
      rw [List.drop_eq_nil_of_le (by omega), List.take_nil]
  refine ⟨hmain, ?_, fun hle => by
    rw [hmain, List.drop_eq_nil_of_le hle, List.take_nil], ?_⟩
  · have h1 : usizeSub 0 1 = 2 ^ 64 - 1 := by unfold usizeSub; omega
    have h2 : usizeMul 30 (2 ^ 64 - 1) = 2 ^ 64 - 30 := by unfold usizeMul; omega
    have h3 : usizeAdd (2 ^ 64 - 30) 30 = 0 := by unfold usizeAdd; omega
    unfold get_page
    simp only [h1, h2]
    rw [h3]
    rw [if_neg (by rintro ⟨hA, -⟩; omega)]
  · have h1 : usizeSub (2 ^ 63 + 1) 1 = 2 ^ 63 := by unfold usizeSub; omega
    have h2 : usizeMul 30 (2 ^ 63) = 0 := by unfold usizeMul; omega
    have h3 : usizeAdd 0 30 = 30 := by unfold usizeAdd; omega
    unfold get_page
    simp only [h1, h2]
    rw [h3]
    rw [if_pos ⟨Nat.zero_le _, min_le_right _ _⟩]
    rw [List.drop_zero, Nat.sub_zero]
    exact take_min_length nums 30

/-- Witness for the amended C9: a 2-element retained sample at page 1. -/
theorem get_page_amended_witness :
    (([(1 : ℚ), 2] : List ℚ).length < 2 ^ 64 ∧ 1 ≤ 1 ∧ 30 * 1 ≤ 2 ^ 64) ∧
    (get_page [1, 2] 1 = (([(1 : ℚ), 2] : List ℚ).drop (30 * (1 - 1))).take 30 ∧
      get_page [1, 2] 0 = [] ∧
      (([(1 : ℚ), 2] : List ℚ).length ≤ 30 * (1 - 1) → get_page [1, 2] 1 = []) ∧
      get_page [1, 2] (2 ^ 63 + 1) = ([(1 : ℚ), 2] : List ℚ).take 30) :=
  ⟨⟨by norm_num, le_refl 1, by norm_num⟩,
    get_page_amended [1, 2] 1 (by norm_num) (le_refl 1) (by norm_num)⟩
